import Mathlib

/-!
Verification of the lockfreehashmap crate (lib.rs) against its
natural-language specification.

The public facade (insert, replace, remove, get, contains_key, clear,
clear_with_capacity, with_capacity, keys, DEFAULT_CAPACITY) lives in
src/lib.rs and is embedded directly below.  The inner module map_inner.rs
(MapInner, put_if_match, the slot state machine, help_copy) is declared by
lib.rs but its file is not part of the sources, so those parts are modelled
from the specification text, as marked on each definition.

The concurrent map restricted to a single thread and a quiescent table is a
sequential association structure; the model below captures exactly that
fragment, together with the value-slot lattice and the table chain used by
the keys iterator.
-/

namespace LockFree

/-- Modelled from the spec: the ValueSlot tagged union of map_inner.rs
(absent from the sources).  Empty is the null cell, value the live value,
tombstone marks removal, valuePrime is Prime(Value(v)) and copiedSentinel
is the distinguished Prime(Tombstone) written by the resizer. -/
inductive ValueSlot (V : Type) where
  | empty : ValueSlot V
  | value : V → ValueSlot V
  | tombstone : ValueSlot V
  | valuePrime : V → ValueSlot V
  | copiedSentinel : ValueSlot V
deriving DecidableEq, Repr

namespace ValueSlot

/-- Modelled from the spec: ValueSlot::is_value of map_inner.rs. -/
def isValue {V : Type} : ValueSlot V → Bool
  | value _ => true
  | _ => false

/-- Modelled from the spec: ValueSlot::is_valueprime of map_inner.rs. -/
def isValuePrime {V : Type} : ValueSlot V → Bool
  | valuePrime _ => true
  | _ => false

/-- Modelled from the spec: ValueSlot::as_inner of map_inner.rs, the
outward conversion used by the lib.rs facade: the prior cell is reported
as Some only when it held a live value. -/
def asInner {V : Type} : Option (ValueSlot V) → Option V
  | some (value v) => some v
  | _ => none

end ValueSlot

/-- Modelled from the spec: the KeyCompare argument of put_if_match.
Owned may claim an empty key cell; OnlyCompare is lookup-only. -/
inductive KeyCompare (K : Type) where
  | owned : K → KeyCompare K
  | onlyCompare : K → KeyCompare K
deriving DecidableEq, Repr

/-- The key carried by either KeyCompare variant. -/
def KeyCompare.key {K : Type} : KeyCompare K → K
  | owned k => k
  | onlyCompare k => k

/-- Modelled from the spec: the match_cond argument of put_if_match.
Always is unconditional, AnyKeyValuePair proceeds only on a live Value,
Specific(exp) proceeds only when the current cell equals exp. -/
inductive MatchCond (V : Type) where
  | always : MatchCond V
  | anyKeyValuePair : MatchCond V
  | specific : ValueSlot V → MatchCond V
deriving DecidableEq, Repr

/-- Rust usize::next_power_of_two: the least power of two that is at
least n (1 when n is 0 or 1). -/
def nextPowerOfTwo (n : Nat) : Nat := 2 ^ Nat.clog 2 n

/-- Modelled from the spec: the quiescent single-table fragment of
MapInner of map_inner.rs (absent from the sources).  capacity is the slot
count; slots lists the committed key cells in probe order, each with its
value cell.  Key cells that are still Empty are not listed. -/
structure MapInner (K V : Type) where
  capacity : Nat
  slots : List (K × ValueSlot V)
deriving DecidableEq, Repr

namespace MapInner

/-- Modelled from the spec: MapInner::with_capacity_and_hasher of
map_inner.rs; effective capacity = next_power_of_two(max(n, 1)).
The hasher collaborator is out of scope and carries no state here. -/
def withCapacityAndHasher (K V : Type) (n : Nat) : MapInner K V :=
  { capacity := nextPowerOfTwo (max n 1), slots := [] }

/-- Modelled from the spec: MapInner::with_capacity of map_inner.rs,
the RandomState specialisation of withCapacityAndHasher. -/
def withCapacity (K V : Type) (n : Nat) : MapInner K V :=
  withCapacityAndHasher K V n

/-- Modelled from the spec: MapInner::len; the size counter equals the
number of live Value cells. -/
def len {K V : Type} (m : MapInner K V) : Nat :=
  (m.slots.filter (fun s => s.snd.isValue)).length

/-- Modelled from the spec: the probe loop of MapInner::get on a
quiescent table: walk the probe sequence; an Empty key cell means the
key is absent; on a committed equal key a live Value is returned while
Empty or Tombstone reports absence; otherwise keep probing.  Primed
cells do not arise in the quiescent fragment. -/
def getSlots {K V : Type} (keq : K → K → Bool) (k : K) :
    List (K × ValueSlot V) → Option V
  | [] => none
  | s :: rest =>
    if keq k s.fst then
      match s.snd with
      | ValueSlot.value v => some v
      | _ => none
    else getSlots keq k rest

/-- Modelled from the spec: MapInner::get on a quiescent table. -/
def get {K V : Type} (keq : K → K → Bool) (m : MapInner K V) (k : K) :
    Option V :=
  getSlots keq k m.slots

/-- Modelled from the spec: the reprobe loop of put_if_match of
map_inner.rs on a quiescent table, over the committed slots in probe
order.  Reaching the end of the committed slots is reaching an Empty key
cell: the key cell is claimed only for an Owned key and only when the
match condition accepts the Empty current cell (step 2 and step 4).  On
a committed equal key, the match condition inspects the current value
cell and, when it accepts, the new cell is published and the prior cell
reported (steps 4 and 5); a rejected match aborts with None. -/
def putSlots {K V : Type} [DecidableEq V] (keq : K → K → Bool)
    (keySpec : KeyCompare K) (newVal : ValueSlot V) (cond : MatchCond V) :
    List (K × ValueSlot V) → Option (ValueSlot V) × List (K × ValueSlot V)
  | [] =>
    match keySpec, cond with
    | KeyCompare.onlyCompare _, _ => (none, [])
    | KeyCompare.owned k, MatchCond.always => (none, [(k, newVal)])
    | KeyCompare.owned _, MatchCond.anyKeyValuePair => (none, [])
    | KeyCompare.owned k, MatchCond.specific exp =>
      if exp = ValueSlot.empty then (none, [(k, newVal)]) else (none, [])
  | s :: rest =>
    if keq keySpec.key s.fst then
      match cond with
      | MatchCond.always => (some s.snd, (s.fst, newVal) :: rest)
      | MatchCond.anyKeyValuePair =>
        if s.snd.isValue then (some s.snd, (s.fst, newVal) :: rest)
        else (none, s :: rest)
      | MatchCond.specific exp =>
        if s.snd = exp then (some s.snd, (s.fst, newVal) :: rest)
        else (none, s :: rest)
    else
      let r := putSlots keq keySpec newVal cond rest
      (r.fst, s :: r.snd)

/-- Modelled from the spec: put_if_match of map_inner.rs on a quiescent
table, returning the raw prior value cell (None when the operation
aborted or the key was absent) together with the updated table. -/
def putIfMatchRaw {K V : Type} [DecidableEq V] (keq : K → K → Bool)
    (m : MapInner K V) (keySpec : KeyCompare K) (newVal : ValueSlot V)
    (cond : MatchCond V) : Option (ValueSlot V) × MapInner K V :=
  let r := putSlots keq keySpec newVal cond m.slots
  (r.fst, { m with slots := r.snd })

end MapInner

/-! The lib.rs facade, embedded from src/lib.rs.  Each operation is the
corresponding method of LockFreeHashMap, acting on the inner table. -/

/-- lib.rs line 70: the default size of a new map. -/
def DEFAULT_CAPACITY : Nat := 8

/-- lib.rs lines 242-253: insert calls put_if_match with an owned key,
a live value and Match::Always, then converts by ValueSlot::as_inner. -/
def insert {K V : Type} [DecidableEq V] (keq : K → K → Bool)
    (m : MapInner K V) (k : K) (v : V) : Option V × MapInner K V :=
  let r := m.putIfMatchRaw keq (KeyCompare.owned k) (ValueSlot.value v)
    MatchCond.always
  (ValueSlot.asInner r.fst, r.snd)

/-- lib.rs lines 271-284: replace calls put_if_match with a borrowed key,
a live value and Match::AnyKeyValuePair, then ValueSlot::as_inner. -/
def replace {K V : Type} [DecidableEq V] (keq : K → K → Bool)
    (m : MapInner K V) (k : K) (v : V) : Option V × MapInner K V :=
  let r := m.putIfMatchRaw keq (KeyCompare.onlyCompare k)
    (ValueSlot.value v) MatchCond.anyKeyValuePair
  (ValueSlot.asInner r.fst, r.snd)

/-- lib.rs lines 299-312: remove calls put_if_match with a borrowed key,
a tombstone and Match::Always, then ValueSlot::as_inner. -/
def remove {K V : Type} [DecidableEq V] (keq : K → K → Bool)
    (m : MapInner K V) (k : K) : Option V × MapInner K V :=
  let r := m.putIfMatchRaw keq (KeyCompare.onlyCompare k)
    ValueSlot.tombstone MatchCond.always
  (ValueSlot.asInner r.fst, r.snd)

/-- lib.rs lines 217-222: get delegates to the inner table. -/
def get {K V : Type} (keq : K → K → Bool) (m : MapInner K V) (k : K) :
    Option V :=
  m.get keq k

/-- lib.rs lines 196-202: contains_key is get(...).is_some(). -/
def containsKey {K V : Type} (keq : K → K → Bool) (m : MapInner K V)
    (k : K) : Bool :=
  (get keq m k).isSome

/-- lib.rs lines 173-178: clear_with_capacity builds a fresh inner map
with the requested capacity (cloning the hasher) and swaps it in. -/
def clearWithCapacity {K V : Type} (_m : MapInner K V) (n : Nat) :
    MapInner K V :=
  MapInner.withCapacityAndHasher K V n

/-- lib.rs lines 151-153: clear is clear_with_capacity(DEFAULT_CAPACITY). -/
def clear {K V : Type} (m : MapInner K V) : MapInner K V :=
  clearWithCapacity m DEFAULT_CAPACITY

/-! The per-slot value-cell state machine and its finality lattice. -/

/-- Rank of a value cell in the finality lattice: Empty below
Value and Tombstone, below Prime(Value), below CopiedSentinel. -/
def rank {V : Type} : ValueSlot V → Nat
  | ValueSlot.empty => 0
  | ValueSlot.value _ => 1
  | ValueSlot.tombstone => 1
  | ValueSlot.valuePrime _ => 2
  | ValueSlot.copiedSentinel => 3

/-- Modelled from the spec: the successful value-cell transitions of the
per-slot state machine of map_inner.rs (absent from the sources),
including the resizer transitions: priming a live value, finalizing a
primed cell, and the direct Empty or Tombstone to CopiedSentinel step. -/
inductive ValueStep {V : Type} : ValueSlot V → ValueSlot V → Prop where
  | insert (v : V) : ValueStep ValueSlot.empty (ValueSlot.value v)
  | removeAbsent : ValueStep ValueSlot.empty ValueSlot.tombstone
  | update (v w : V) : ValueStep (ValueSlot.value v) (ValueSlot.value w)
  | remove (v : V) : ValueStep (ValueSlot.value v) ValueSlot.tombstone
  | reinsert (v : V) : ValueStep ValueSlot.tombstone (ValueSlot.value v)
  | primeValue (v : V) :
      ValueStep (ValueSlot.value v) (ValueSlot.valuePrime v)
  | primeTombstone : ValueStep ValueSlot.tombstone ValueSlot.copiedSentinel
  | primeEmpty : ValueStep ValueSlot.empty ValueSlot.copiedSentinel
  | finalize (v : V) :
      ValueStep (ValueSlot.valuePrime v) ValueSlot.copiedSentinel

/-! The table chain and the keys iterator. -/

/-- A nonempty chain of tables linked by newer_map pointers: last is a
table whose newer_map is null, cons links a table to its successor. -/
inductive Chain (K V : Type) where
  | last : MapInner K V → Chain K V
  | cons : MapInner K V → Chain K V → Chain K V

/-- The head table of a chain. -/
def Chain.head {K V : Type} : Chain K V → MapInner K V
  | Chain.last t => t
  | Chain.cons t _ => t

/-- Modelled from the spec: one full help_copy pass of map_inner.rs
(absent from the sources): every live source entry is migrated into the
successor by put_if_match with match condition Specific(Empty), so
entries already present or tombstoned there are left alone. -/
def helpCopyAll {K V : Type} [DecidableEq V] (keq : K → K → Bool)
    (src dst : MapInner K V) : MapInner K V :=
  src.slots.foldl
    (fun acc s =>
      match s.snd with
      | ValueSlot.value v =>
        (acc.putIfMatchRaw keq (KeyCompare.owned s.fst) (ValueSlot.value v)
          (MatchCond.specific ValueSlot.empty)).snd
      | _ => acc)
    dst

/-- After the head table is fully copied into its successor, the top
pointer is promoted: the head disappears from the chain. -/
def mergeHead {K V : Type} [DecidableEq V] (keq : K → K → Bool)
    (t : MapInner K V) : Chain K V → Chain K V
  | Chain.last u => Chain.last (helpCopyAll keq t u)
  | Chain.cons u rest => Chain.cons (helpCopyAll keq t u) rest

/-- Number of links in a chain. -/
def Chain.length {K V : Type} : Chain K V → Nat
  | Chain.last _ => 1
  | Chain.cons _ rest => 1 + rest.length

/-- lib.rs lines 338-349: the loop at the start of keys(): while the
loaded table has a newer_map, help the copy along and reload the top
pointer; the snapshot is the table the loop exits with. -/
def keysLoop {K V : Type} [DecidableEq V] (keq : K → K → Bool) :
    Chain K V → Chain K V
  | Chain.last t => Chain.last t
  | Chain.cons t rest => keysLoop keq (mergeHead keq t rest)
termination_by c => c.length
decreasing_by
  rename_i rest
  cases rest <;> simp [mergeHead, Chain.length]

/-- The raw per-index view of a snapshot table that Keys::next walks:
position i yields the key cell (null until committed) and value cell at
slot i; indices past the committed slots are still fully empty. -/
def rawSlots {K V : Type} (m : MapInner K V) :
    List (Option K × ValueSlot V) :=
  m.slots.map (fun s => (some s.fst, s.snd)) ++
    List.replicate (m.capacity - m.slots.length) (none, ValueSlot.empty)

/-- lib.rs lines 410-430: the Keys iterator run to completion.  Each
position is visited once; a key is yielded exactly when the key cell is
a committed Key(k) and the value cell is a live or primed value. -/
def keysNextAll {K V : Type} : List (Option K × ValueSlot V) → List K
  | [] => []
  | s :: rest =>
    match s.fst with
    | some k =>
      if s.snd.isValue || s.snd.isValuePrime then k :: keysNextAll rest
      else keysNextAll rest
    | none => keysNextAll rest

/-- lib.rs lines 338-349 with 410-430: keys() drains pending resizes,
snapshots the resulting table and iterates it. -/
def keys {K V : Type} [DecidableEq V] (keq : K → K → Bool)
    (c : Chain K V) : List K :=
  keysNextAll (rawSlots (keysLoop keq c).head)

/-- The committed key cells of a table in probe order: the stored key
identities, as opposed to the keys used for probing. -/
def keysStored {K V : Type} (m : MapInner K V) : List K :=
  m.slots.map Prod.fst

/-- User equality on pairs that compares only the first component: two
keys can be equal under it while being distinct objects, which is what
the key-identity property is about. -/
def pairFstEq (a b : Nat × Nat) : Bool :=
  Nat.beq a.fst b.fst

/-- A map holding the key identity (1, 10), built by a first insert. -/
def pairBase : MapInner (Nat × Nat) Nat :=
  (insert pairFstEq (MapInner.withCapacity (Nat × Nat) Nat 8) (1, 10) 5).snd

/-- A concrete snapshot table: one live key, one tombstoned key, one
never-committed slot pair. -/
def sampleTable : MapInner Nat Nat :=
  { capacity := 4,
    slots := [(1, ValueSlot.value 1), (2, ValueSlot.tombstone)] }

/-- A concrete one-table chain with no pending resize. -/
def sampleChain : Chain Nat Nat :=
  Chain.last sampleTable

/-! Helper lemmas about the probe loops. -/

theorem putSlots_always_asInner {K V : Type} [DecidableEq V]
    (keq : K → K → Bool) (ks : KeyCompare K) (nv : ValueSlot V)
    (l : List (K × ValueSlot V)) :
    ValueSlot.asInner (MapInner.putSlots keq ks nv MatchCond.always l).fst =
      MapInner.getSlots keq ks.key l := by
  induction l with
  | nil => cases ks <;> rfl
  | cons s rest ih =>
    by_cases h : keq ks.key s.fst
    · simp only [MapInner.putSlots, MapInner.getSlots, h, if_pos]
      cases s.snd <;> rfl
    · simpa only [MapInner.putSlots, MapInner.getSlots, h, Bool.false_eq_true,
        if_neg, if_false] using ih

theorem putSlots_anyKVP_asInner {K V : Type} [DecidableEq V]
    (keq : K → K → Bool) (k : K) (nv : ValueSlot V)
    (l : List (K × ValueSlot V)) :
    ValueSlot.asInner
        (MapInner.putSlots keq (KeyCompare.onlyCompare k) nv
          MatchCond.anyKeyValuePair l).fst =
      MapInner.getSlots keq k l := by
  induction l with
  | nil => rfl
  | cons s rest ih =>
    by_cases h : keq (KeyCompare.onlyCompare k).key s.fst
    · simp only [MapInner.putSlots, MapInner.getSlots, h, if_pos,
        KeyCompare.key] at *
      cases s.snd <;> simp [ValueSlot.isValue, ValueSlot.asInner, h]
    · simp only [MapInner.putSlots, MapInner.getSlots, KeyCompare.key] at *
      simpa [h] using ih

theorem putSlots_anyKVP_of_getSlots_none {K V : Type} [DecidableEq V]
    (keq : K → K → Bool) (k : K) (nv : ValueSlot V)
    (l : List (K × ValueSlot V))
    (h : MapInner.getSlots keq k l = none) :
    MapInner.putSlots keq (KeyCompare.onlyCompare k) nv
      MatchCond.anyKeyValuePair l = (none, l) := by
  induction l with
  | nil => rfl
  | cons s rest ih =>
    by_cases hk : keq k s.fst
    · have hs : s.snd.isValue = false := by
        cases hv : s.snd <;> simp only [ValueSlot.isValue]
        rw [MapInner.getSlots, if_pos hk, hv] at h
        exact absurd h (by simp)
      rw [MapInner.putSlots]
      simp [KeyCompare.key, hk, hs]
    · rw [MapInner.getSlots, if_neg (by simp [hk])] at h
      rw [MapInner.putSlots]
      simp [KeyCompare.key, hk, ih h]

theorem getSlots_putSlots_tombstone {K V : Type} [DecidableEq V]
    (keq : K → K → Bool) (k : K) (l : List (K × ValueSlot V)) :
    MapInner.getSlots keq k
      (MapInner.putSlots keq (KeyCompare.onlyCompare k) ValueSlot.tombstone
        MatchCond.always l).snd = none := by
  induction l with
  | nil => rfl
  | cons s rest ih =>
    by_cases hk : keq k s.fst
    · rw [MapInner.putSlots]
      simp [KeyCompare.key, hk, MapInner.getSlots]
    · rw [MapInner.putSlots]
      simp [KeyCompare.key, hk, MapInner.getSlots, ih]

theorem putSlots_owned_mem {K V : Type} [DecidableEq V]
    (keq : K → K → Bool) (k1 : K) (v1 : V) (l : List (K × ValueSlot V))
    (h : ∃ s ∈ l, keq k1 s.fst = true) :
    (MapInner.putSlots keq (KeyCompare.owned k1) (ValueSlot.value v1)
        MatchCond.always l).snd.map Prod.fst = l.map Prod.fst ∧
    MapInner.getSlots keq k1
      (MapInner.putSlots keq (KeyCompare.owned k1) (ValueSlot.value v1)
        MatchCond.always l).snd = some v1 := by
  induction l with
  | nil => simp at h
  | cons s rest ih =>
    by_cases hk : keq k1 s.fst
    · rw [MapInner.putSlots]
      simp [KeyCompare.key, hk, MapInner.getSlots]
    · obtain ⟨s', hs', hkeq⟩ := h
      rcases List.mem_cons.1 hs' with rfl | hmem
      · exact absurd hkeq (by simp [hk])
      · obtain ⟨h1, h2⟩ := ih ⟨s', hmem, hkeq⟩
        rw [MapInner.putSlots]
        simp [KeyCompare.key, hk, MapInner.getSlots, h1, h2]

theorem keysNextAll_sublist {K V : Type}
    (slots : List (Option K × ValueSlot V)) :
    List.Sublist (keysNextAll slots) (slots.filterMap Prod.fst) := by
  induction slots with
  | nil => exact List.Sublist.refl _
  | cons s rest ih =>
    obtain ⟨f, v⟩ := s
    cases f with
    | none =>
      simp only [keysNextAll, List.filterMap_cons]
      exact ih
    | some k =>
      simp only [keysNextAll, List.filterMap_cons]
      by_cases hv : (ValueSlot.isValue v || ValueSlot.isValuePrime v) = true
      · rw [if_pos hv]
        exact List.Sublist.cons₂ k ih
      · rw [if_neg hv]
        exact List.Sublist.cons k ih

theorem keysNextAll_mem {K V : Type}
    (slots : List (Option K × ValueSlot V)) (k : K)
    (h : k ∈ keysNextAll slots) :
    ∃ s ∈ slots, s.fst = some k ∧
      (s.snd.isValue || s.snd.isValuePrime) = true := by
  induction slots with
  | nil => simp [keysNextAll] at h
  | cons s rest ih =>
    obtain ⟨f, v⟩ := s
    cases f with
    | none =>
      simp only [keysNextAll] at h
      obtain ⟨s', hs', hp⟩ := ih h
      exact ⟨s', List.mem_cons_of_mem _ hs', hp⟩
    | some k0 =>
      simp only [keysNextAll] at h
      by_cases hv : (ValueSlot.isValue v || ValueSlot.isValuePrime v) = true
      · rw [if_pos hv, List.mem_cons] at h
        rcases h with rfl | h
        · exact ⟨(some k, v), List.mem_cons_self _ _, rfl, hv⟩
        · obtain ⟨s', hs', hp⟩ := ih h
          exact ⟨s', List.mem_cons_of_mem _ hs', hp⟩
      · rw [if_neg hv] at h
        obtain ⟨s', hs', hp⟩ := ih h
        exact ⟨s', List.mem_cons_of_mem _ hs', hp⟩

theorem keysLoop_cons_ex {K V : Type} [DecidableEq V] (keq : K → K → Bool)
    (rest : Chain K V) :
    ∀ t : MapInner K V, ∃ u, keysLoop keq (Chain.cons t rest) = Chain.last u := by
  induction rest with
  | last u =>
    intro t
    exact ⟨helpCopyAll keq t u, by simp [keysLoop, mergeHead]⟩
  | cons u r ih =>
    intro t
    obtain ⟨w, hw⟩ := ih (helpCopyAll keq t u)
    refine ⟨w, ?_⟩
    rw [keysLoop]
    simpa [mergeHead] using hw

theorem nextPowerOfTwo_eight : nextPowerOfTwo 8 = 8 := by
  simp [nextPowerOfTwo, Nat.clog]

theorem nextPowerOfTwo_fifteen : nextPowerOfTwo 15 = 16 := by
  simp [nextPowerOfTwo, Nat.clog]

/-! The claims. -/

/-- C3: a map created by with_capacity(n) or with_capacity_and_hasher(n, h)
has capacity next_power_of_two(max(n, 1)), which is the least power of two
at least max(n, 1); with_capacity(0) yields capacity 1 and with_capacity(12)
yields capacity 16. -/
theorem with_capacity_effective_capacity (n : Nat) :
    (MapInner.withCapacity Nat Nat n).capacity = nextPowerOfTwo (max n 1) ∧
    (MapInner.withCapacityAndHasher Nat Nat n).capacity =
      nextPowerOfTwo (max n 1) ∧
    (∃ k, (MapInner.withCapacity Nat Nat n).capacity = 2 ^ k) ∧
    max n 1 ≤ (MapInner.withCapacity Nat Nat n).capacity ∧
    (∀ j, max n 1 ≤ 2 ^ j → (MapInner.withCapacity Nat Nat n).capacity ≤ 2 ^ j) ∧
    (MapInner.withCapacity Nat Nat 0).capacity = 1 ∧
    (MapInner.withCapacity Nat Nat 12).capacity = 16 := by
  refine ⟨rfl, rfl, ⟨Nat.clog 2 (max n 1), rfl⟩, ?_, ?_, ?_, ?_⟩
  · exact Nat.le_pow_clog one_lt_two _
  · intro j hj
    exact Nat.pow_le_pow_right (by omega)
      ((Nat.le_pow_iff_clog_le one_lt_two).1 hj)
  · simp [MapInner.withCapacity, MapInner.withCapacityAndHasher,
      nextPowerOfTwo, Nat.clog]
  · simp [MapInner.withCapacity, MapInner.withCapacityAndHasher,
      nextPowerOfTwo, Nat.clog]

/-- Witness for C3 at n = 12 and j = 4. -/
theorem with_capacity_effective_capacity_check :
    max 12 1 ≤ 2 ^ 4 ∧ (MapInner.withCapacity Nat Nat 12).capacity ≤ 2 ^ 4 :=
  ⟨by decide, (with_capacity_effective_capacity 12).2.2.2.2.1 4 (by decide)⟩

/-- C4: clear_with_capacity(n) swaps in a fresh empty table: afterwards the
slots are empty, len() is 0 and capacity() is next_power_of_two(max(n, 1));
in particular clear_with_capacity(15) on a non-empty map (here one holding
key 1) leaves capacity() = 16 and len() = 0. -/
theorem clear_with_capacity_fresh_table (m : MapInner Nat Nat) (n : Nat) :
    (clearWithCapacity m n).slots = [] ∧
    (clearWithCapacity m n).len = 0 ∧
    (clearWithCapacity m n).capacity = nextPowerOfTwo (max n 1) ∧
    ((insert Nat.beq (MapInner.withCapacity Nat Nat 8) 1 1).snd).len = 1 ∧
    (clearWithCapacity
      ((insert Nat.beq (MapInner.withCapacity Nat Nat 8) 1 1).snd) 15).capacity
      = 16 ∧
    (clearWithCapacity
      ((insert Nat.beq (MapInner.withCapacity Nat Nat 8) 1 1).snd) 15).len
      = 0 := by
  refine ⟨rfl, rfl, rfl, by decide, ?_, rfl⟩
  show nextPowerOfTwo (max 15 1) = 16
  simpa using nextPowerOfTwo_fifteen

/-- C5: contains_key(k) returns exactly get(k, guard).is_some(). -/
theorem contains_key_iff_get_is_some {K V : Type} (keq : K → K → Bool)
    (m : MapInner K V) (k : K) :
    containsKey keq m k = (get keq m k).isSome := rfl

/-- C10: clear() is exactly clear_with_capacity(DEFAULT_CAPACITY) with
DEFAULT_CAPACITY = 8: afterwards the map is empty with capacity 8
regardless of the capacity before the call; in particular clearing a map
that had grown to 64 slots shrinks it back to 8. -/
theorem clear_is_clear_with_default_capacity (m : MapInner Nat Nat) :
    clear m = clearWithCapacity m DEFAULT_CAPACITY ∧
    DEFAULT_CAPACITY = 8 ∧
    (clear m).slots = [] ∧
    (clear m).len = 0 ∧
    (clear m).capacity = 8 ∧
    (MapInner.withCapacity Nat Nat 64).capacity = 64 ∧
    (clear (MapInner.withCapacity Nat Nat 64)).capacity = 8 := by
  refine ⟨rfl, rfl, rfl, rfl, ?_, ?_, ?_⟩
  · show nextPowerOfTwo (max 8 1) = 8
    simpa using nextPowerOfTwo_eight
  · simp [MapInner.withCapacity, MapInner.withCapacityAndHasher,
      nextPowerOfTwo, Nat.clog]
  · show nextPowerOfTwo (max 8 1) = 8
    simpa using nextPowerOfTwo_eight

/-- C8: every successful value-cell mutation advances the cell along the
finality lattice Empty, then Value or Tombstone, then Prime, then
CopiedSentinel: the rank never decreases, and each step either strictly
increases the rank or stays within the Value/Tombstone rank. -/
theorem value_slot_lattice_monotone {V : Type} (a b : ValueSlot V)
    (h : ValueStep a b) :
    rank a ≤ rank b ∧ (rank a < rank b ∨ (rank a = 1 ∧ rank b = 1)) := by
  cases h <;> simp [rank]

/-- Witness for C8 at the insert transition Empty to Value(0). -/
theorem value_slot_lattice_monotone_check :
    rank (ValueSlot.empty : ValueSlot Nat) ≤ rank (ValueSlot.value 0) ∧
    (rank (ValueSlot.empty : ValueSlot Nat) < rank (ValueSlot.value 0) ∨
      (rank (ValueSlot.empty : ValueSlot Nat) = 1 ∧
        rank (ValueSlot.value (0 : Nat)) = 1)) :=
  value_slot_lattice_monotone ValueSlot.empty (ValueSlot.value 0)
    (ValueStep.insert 0)

/-- C1: single-threaded, the map behaves like a sequential reference map:
insert returns the prior live value of the key (None when absent), so does
replace on a present key, remove returns the last value and afterwards get
returns None; the sequence insert(k,v); replace(k,v1); remove(k); get(k);
replace(k,v2) returns None, Some(v), Some(v1), None, None; and inserting
keys 1, 2, 3 with values 1, 2, 3 gives len() = 3, get(2) = Some(2) and
get(4) = None. -/
theorem sequential_reference_behaviour :
    (∀ (K V : Type) [DecidableEq V] (keq : K → K → Bool) (m : MapInner K V)
      (k : K) (v : V), (insert keq m k v).fst = get keq m k) ∧
    (∀ (K V : Type) [DecidableEq V] (keq : K → K → Bool) (m : MapInner K V)
      (k : K) (v : V), (replace keq m k v).fst = get keq m k) ∧
    (∀ (K V : Type) [DecidableEq V] (keq : K → K → Bool) (m : MapInner K V)
      (k : K), (remove keq m k).fst = get keq m k ∧
        get keq (remove keq m k).snd k = none) ∧
    (∀ k v v1 v2 : Nat,
      (insert Nat.beq (MapInner.withCapacity Nat Nat 8) k v).fst = none ∧
      (replace Nat.beq
        (insert Nat.beq (MapInner.withCapacity Nat Nat 8) k v).snd k v1).fst
        = some v ∧
      (remove Nat.beq
        (replace Nat.beq
          (insert Nat.beq (MapInner.withCapacity Nat Nat 8) k v).snd
            k v1).snd k).fst = some v1 ∧
      get Nat.beq
        (remove Nat.beq
          (replace Nat.beq
            (insert Nat.beq (MapInner.withCapacity Nat Nat 8) k v).snd
              k v1).snd k).snd k = none ∧
      (replace Nat.beq
        (remove Nat.beq
          (replace Nat.beq
            (insert Nat.beq (MapInner.withCapacity Nat Nat 8) k v).snd
              k v1).snd k).snd k v2).fst = none) ∧
    (MapInner.len
        (insert Nat.beq
          (insert Nat.beq
            (insert Nat.beq (MapInner.withCapacity Nat Nat 8) 1 1).snd
              2 2).snd 3 3).snd = 3 ∧
      get Nat.beq
        (insert Nat.beq
          (insert Nat.beq
            (insert Nat.beq (MapInner.withCapacity Nat Nat 8) 1 1).snd
              2 2).snd 3 3).snd 2 = some 2 ∧
      get Nat.beq
        (insert Nat.beq
          (insert Nat.beq
            (insert Nat.beq (MapInner.withCapacity Nat Nat 8) 1 1).snd
              2 2).snd 3 3).snd 4 = none) := by
  refine ⟨?_, ?_, ?_, ?_, by decide⟩
  · intro K V iV keq m k v
    exact putSlots_always_asInner keq (KeyCompare.owned k)
      (ValueSlot.value v) m.slots
  · intro K V iV keq m k v
    exact putSlots_anyKVP_asInner keq k (ValueSlot.value v) m.slots
  · intro K V iV keq m k
    exact ⟨putSlots_always_asInner keq (KeyCompare.onlyCompare k)
      ValueSlot.tombstone m.slots, getSlots_putSlots_tombstone keq k m.slots⟩
  · intro k v v1 v2
    refine ⟨rfl, ?_, ?_, ?_, ?_⟩ <;>
      simp [LockFree.replace, LockFree.insert, LockFree.remove, LockFree.get,
        MapInner.get, MapInner.putIfMatchRaw, MapInner.putSlots,
        MapInner.getSlots, MapInner.withCapacity,
        MapInner.withCapacityAndHasher, KeyCompare.key, ValueSlot.asInner,
        ValueSlot.isValue, Nat.beq_refl]

/-- C2: replace(k, v) is a no-op returning None when the key is absent or
its slot holds a tombstone, that is whenever get(k) observes no live
value; the map is unchanged. -/
theorem replace_absent_noop {K V : Type} [DecidableEq V]
    (keq : K → K → Bool) (m : MapInner K V) (k : K) (v : V)
    (h : get keq m k = none) :
    replace keq m k v = (none, m) := by
  have hp := putSlots_anyKVP_of_getSlots_none keq k (ValueSlot.value v)
    m.slots h
  simp only [LockFree.replace, MapInner.putIfMatchRaw, hp]
  rfl

/-- Witness for C2 on a table whose slot for key 2 holds a tombstone. -/
theorem replace_absent_noop_check :
    get Nat.beq sampleTable 2 = none ∧
    replace Nat.beq sampleTable 2 7 = (none, sampleTable) :=
  ⟨by decide, replace_absent_noop Nat.beq sampleTable 2 7 (by decide)⟩

/-- C7: a successful insert of a key equal (under the user equality) to an
already-committed key replaces only the value: the stored key identities
are unchanged, and the new value is bound to the original key. -/
theorem insert_preserves_stored_key {K V : Type} [DecidableEq V]
    (keq : K → K → Bool) (m : MapInner K V) (k1 : K) (v1 : V)
    (h : ∃ s ∈ m.slots, keq k1 s.fst = true) :
    keysStored (insert keq m k1 v1).snd = keysStored m ∧
    get keq (insert keq m k1 v1).snd k1 = some v1 :=
  putSlots_owned_mem keq k1 v1 m.slots h

/-- Witness for C7: after inserting key (1, 10), inserting the equal but
distinct key (1, 20) leaves the stored key identity (1, 10). -/
theorem insert_preserves_stored_key_check :
    (∃ s ∈ pairBase.slots, pairFstEq (1, 20) s.fst = true) ∧
    keysStored (insert pairFstEq pairBase (1, 20) 7).snd =
      keysStored pairBase ∧
    keysStored pairBase = [(1, 10)] :=
  ⟨by decide,
    (insert_preserves_stored_key pairFstEq pairBase (1, 20) 7 (by decide)).1,
    by decide⟩

/-- C6: keys(guard) drains all pending resizes before snapshotting (the
loop only exits on a table with no newer map); the iterator yields one
key per slot index, so when the committed keys of the snapshot are
pairwise distinct no key is yielded twice; and a key is yielded only when
its key cell is committed and its value cell is a live or primed value. -/
theorem keys_drains_then_yields_each_slot_once :
    (∀ (K V : Type) [DecidableEq V] (keq : K → K → Bool) (c : Chain K V),
      ∃ t, keysLoop keq c = Chain.last t) ∧
    (∀ (K V : Type) [DecidableEq V] (keq : K → K → Bool) (c : Chain K V),
      ((rawSlots (keysLoop keq c).head).filterMap Prod.fst).Nodup →
        (keys keq c).Nodup) ∧
    (∀ (K V : Type) [DecidableEq V] (keq : K → K → Bool) (c : Chain K V)
      (k : K), k ∈ keys keq c →
        ∃ s ∈ rawSlots (keysLoop keq c).head,
          s.fst = some k ∧ (s.snd.isValue || s.snd.isValuePrime) = true) := by
  refine ⟨?_, ?_, ?_⟩
  · intro K V iV keq c
    cases c with
    | last t => exact ⟨t, by simp [keysLoop]⟩
    | cons t rest => exact keysLoop_cons_ex keq rest t
  · intro K V iV keq c h
    exact List.Nodup.sublist (keysNextAll_sublist _) h
  · intro K V iV keq c k hk
    exact keysNextAll_mem _ k hk

/-- Witness for C6 on a concrete one-table chain. -/
theorem keys_drains_then_yields_each_slot_once_check :
    ((rawSlots (keysLoop Nat.beq sampleChain).head).filterMap Prod.fst).Nodup ∧
    (keys Nat.beq sampleChain).Nodup := by
  have h : ((rawSlots (keysLoop Nat.beq sampleChain).head).filterMap
      Prod.fst).Nodup := by
    simp only [sampleChain, keysLoop]
    decide
  exact ⟨h, keys_drains_then_yields_each_slot_once.2.1 Nat Nat Nat.beq
    sampleChain h⟩

end LockFree
